import Mathlib

/-!
A shallow embedding of the hotkey engine in `src/hotkey_listener.rs` of
virtual-puppet-project/viraction, together with theorems settling the
specification claims about it.

Modelling conventions:
* `Instant` / `Duration` are modelled as `Int` nanoseconds; the engine state
  carries an explicit current time `now`, and a `tick` step advances it.
* `std::collections::HashMap` is modelled as an association list with
  duplicate-free keys, built only through `ainsert` / `aerase`.
* The crossbeam channel feeding `poll` is modelled as the FIFO list `channel`;
  the downstream `listener_sender` sink is modelled as the list `sent` to which
  emitted action names are appended.
* The OS-level hook (external crate `livesplit_hotkey::Hook`) is modelled as
  always succeeding on register/unregister; the claims under study only
  concern successful calls.
-/

deriving instance DecidableEq for Except

namespace Viraction

/-- Modelled from the spec: `livesplit_hotkey::KeyCode` is an external
dependency, described as an opaque, totally-ordered, hashable identifier for a
physical key that parses from a canonical textual name.  We model it as a
natural number drawn from a finite name table. -/
abbrev KeyCode := Nat

/-- Association-list lookup, mirroring `HashMap::get`. -/
def alookup {α β : Type} [DecidableEq α] : List (α × β) → α → Option β
  | [], _ => none
  | (a, b) :: t, x => if a = x then some b else alookup t x

/-- Association-list insert-or-replace, mirroring `HashMap::insert`. -/
def ainsert {α β : Type} [DecidableEq α] : List (α × β) → α → β → List (α × β)
  | [], x, y => [(x, y)]
  | (a, b) :: t, x, y => if a = x then (x, y) :: t else (a, b) :: ainsert t x y

/-- Association-list removal, mirroring `HashMap::remove`. -/
def aerase {α β : Type} [DecidableEq α] : List (α × β) → α → List (α × β)
  | [], _ => []
  | (a, b) :: t, x => if a = x then t else (a, b) :: aerase t x

/-- `HashMap::contains_key`. -/
def acontains {α β : Type} [DecidableEq α] (l : List (α × β)) (x : α) : Bool :=
  (alookup l x).isSome

/-- Modelled from the spec: the finite table of canonical key names understood
by the external `KeyCode` parser (e.g. `"LeftControl"`, `"A"`). -/
def keyCodeTable : List (String × KeyCode) :=
  [("A", 0), ("B", 1), ("S", 2), ("LeftControl", 3), ("Shift", 4), ("Ctrl", 5)]

/-- Modelled from the spec: `KeyCode::from_str`, failing on names outside the
table. -/
def KeyCode.from_str (s : String) : Option KeyCode :=
  alookup keyCodeTable s

/-- The `MapType` enum of `hotkey_listener.rs`. -/
inductive MapType : Type
  | Actions
  | ActionMapping
  | ReverseLookup
deriving DecidableEq

/-- The `Error` enum of `hotkey_listener.rs`.  The two hotkey-hook errors
carry a `livesplit_hotkey::Error` payload in the source; the payload is
external and dropped here. -/
inductive Error : Type
  | HookCreate
  | ActionAlreadyExists
  | ActionDoesNotExist (m : MapType)
  | KeyNotMapped
  | MappedKeyMissingInReverseLookup
  | BadKeyCodeName
  | CannotRegisterHotkey
  | CannotUnregisterHotkey
deriving DecidableEq

/-- Modelled from the spec: `get_hash` in the source feeds the data to
`std::collections::hash_map::DefaultHasher`, an unspecified deterministic
64-bit hash of the `KeyCode` sequence.  We model it as a deterministic
injective encoding of the sequence (a nested `Nat.pair`); a real 64-bit hash
can collide, which the spec documents as an accepted approximation. -/
def get_hash (key_codes : List KeyCode) : Nat :=
  key_codes.foldr (fun k acc => Nat.pair k acc + 1) 0

/-- The per-key parsing loop of `string_slice_to_vec_and_hash`: parse every
name, failing the whole operation with `BadKeyCodeName` on the first
unrecognized name. -/
def parse_key_codes : List String → Except Error (List KeyCode)
  | [] => .ok []
  | k :: rest =>
    match KeyCode.from_str k with
    | some c =>
      match parse_key_codes rest with
      | .ok cs => .ok (c :: cs)
      | .error e => .error e
    | none => .error .BadKeyCodeName

/-- Code-point lexicographic comparison of character lists.  Rust's
`Vec::<String>::sort` compares strings byte-lexicographically; on ASCII key
names this coincides with code-point order, which we use so that concrete
comparisons evaluate. -/
def charListLeb : List Char → List Char → Bool
  | [], _ => true
  | _ :: _, [] => false
  | c :: cs, d :: ds =>
    if c.toNat < d.toNat then true
    else if d.toNat < c.toNat then false
    else charListLeb cs ds

/-- The string order used by the model for `Vec::sort`. -/
def string_le (a b : String) : Bool :=
  charListLeb a.data b.data

/-- `string_slice_to_vec_and_hash`: sort the key names (`Vec::sort`,
lexicographic), parse each into a `KeyCode`, and hash the resulting
sequence. -/
def string_slice_to_vec_and_hash (keys : List String) :
    Except Error (List KeyCode × Nat) :=
  let sorted := List.insertionSort (fun a b => string_le a b = true) keys
  match parse_key_codes sorted with
  | .ok key_codes => .ok (key_codes, get_hash key_codes)
  | .error e => .error e

/-- One second of model time (nanoseconds). -/
def nsPerSec : Int := 1000000000

/-- The `Duration::from_secs(60)` initialization offset of
`ActionMapping::new`. -/
def initOffset : Int := 60 * nsPerSec

/-- `ActionMapping`: all actions associated with a key sequence along with the
last-pressed time for each key. -/
structure ActionMapping : Type where
  actions : List String
  keys : List (KeyCode × Int)
deriving DecidableEq

/-- `ActionMapping::new`: every key's timestamp starts at `now` minus a
60-second offset. -/
def ActionMapping.new (keys : List KeyCode) (now : Int) : ActionMapping :=
  { actions := []
    keys := keys.foldl (fun hm key => ainsert hm key (now - initOffset)) [] }

/-- `ActionMapping::press_key`: update the last-pressed time for a key.  The
source panics (`unreachable!()`) when the key is absent; the model leaves the
map unchanged in that case, and the no-panic claim shows the case is dead. -/
def ActionMapping.press_key (am : ActionMapping) (key : KeyCode) (now : Int) :
    ActionMapping :=
  { am with keys := am.keys.map (fun p => if p.1 = key then (key, now) else p) }

/-- `ActionMapping::is_pressed`: true iff no key's elapsed time exceeds
`min_elapsed_time`. -/
def ActionMapping.is_pressed (am : ActionMapping) (now min_elapsed_time : Int) :
    Bool :=
  am.keys.all (fun p => now - p.2 ≤ min_elapsed_time)

/-- `ActionMapping::add_action`. -/
def ActionMapping.add_action (am : ActionMapping) (action : String) :
    Except Error ActionMapping :=
  if action ∈ am.actions then .error .ActionAlreadyExists
  else .ok { am with actions := am.actions ++ [action] }

/-- `ActionMapping::remove_action` (`Vec::retain` keeps entries different from
`action`). -/
def ActionMapping.remove_action (am : ActionMapping) (action : String) :
    Except Error ActionMapping :=
  if action ∈ am.actions then
    .ok { am with actions := am.actions.filter (fun a => a != action) }
  else .error (.ActionDoesNotExist .ActionMapping)

/-- The `HotkeyListener` state.  `hook` is external (modelled away),
`callback_sender`/`callback_receiver` are the `channel` list, and
`listener_sender` is the `sent` sink; `now` is the model clock. -/
structure HotkeyListener : Type where
  actions : List (Nat × ActionMapping)
  reverse_lookup : List (KeyCode × List Nat)
  min_elapsed_time : Int
  channel : List KeyCode
  sent : List String
  now : Int
deriving DecidableEq

/-- `HotkeyListener::new` at clock `now`: empty tables, empty channel, and the
default 0.2-second window (`Duration::from_secs_f32(0.2)`, modelled as exactly
0.2 s). -/
def HotkeyListener.new (now : Int) : HotkeyListener :=
  { actions := []
    reverse_lookup := []
    min_elapsed_time := 200000000
    channel := []
    sent := []
    now := now }

/-- The reverse-lookup loop of `register_action`: for each key, push the hash
onto the key's fingerprint list if not already present, installing a fresh
entry (and the OS hook, modelled as succeeding) for unseen keys. -/
def register_keys_fold (rl : List (KeyCode × List Nat)) (key_codes : List KeyCode)
    (h : Nat) : List (KeyCode × List Nat) :=
  key_codes.foldl (fun r key =>
    match alookup r key with
    | some v => if h ∈ v then r else ainsert r key (v ++ [h])
    | none => ainsert r key [h]) rl

/-- `HotkeyListener::register_action`. -/
def HotkeyListener.register_action (s : HotkeyListener) (action_name : String)
    (keys : List String) : Except Error HotkeyListener :=
  match string_slice_to_vec_and_hash keys with
  | .error e => .error e
  | .ok (key_codes, key_codes_hash) =>
    match alookup s.actions key_codes_hash with
    | some am =>
      match am.add_action action_name with
      | .error e => .error e
      | .ok am2 =>
        .ok { s with
          actions := ainsert s.actions key_codes_hash am2
          reverse_lookup := register_keys_fold s.reverse_lookup key_codes key_codes_hash }
    | none =>
      match (ActionMapping.new key_codes s.now).add_action action_name with
      | .error e => .error e
      | .ok am2 =>
        .ok { s with
          actions := ainsert s.actions key_codes_hash am2
          reverse_lookup := register_keys_fold s.reverse_lookup key_codes key_codes_hash }

/-- One iteration of the first loop of `unregister_action`'s empty-group path:
retain, in the key's fingerprint list, the hashes different from the removed
one (`Vec::retain`), collecting the key when its list became empty.  The
source's `None => unreachable!()` branch is modelled as a no-op. -/
def retain_step (h : Nat) (acc : List (KeyCode × List Nat) × List KeyCode)
    (key : KeyCode) : List (KeyCode × List Nat) × List KeyCode :=
  match alookup acc.1 key with
  | some v =>
    let v2 := v.filter (fun x => x != h)
    (ainsert acc.1 key v2, if v2.isEmpty then acc.2 ++ [key] else acc.2)
  | none => acc

/-- The first loop of `unregister_action`'s empty-group path, over all
constituent keys. -/
def retain_hash_fold (rl : List (KeyCode × List Nat)) (key_codes : List KeyCode)
    (h : Nat) : List (KeyCode × List Nat) × List KeyCode :=
  key_codes.foldl (retain_step h) (rl, [])

/-- The second loop of `unregister_action`'s empty-group path: remove the
collected keys from the reverse lookup (the OS hook unregistration is modelled
as succeeding). -/
def remove_empty_fold (rl : List (KeyCode × List Nat)) (empty_keys : List KeyCode) :
    List (KeyCode × List Nat) :=
  empty_keys.foldl (fun r key => aerase r key) rl

/-- `HotkeyListener::unregister_action`. -/
def HotkeyListener.unregister_action (s : HotkeyListener) (action_name : String)
    (keys : List String) : Except Error HotkeyListener :=
  match string_slice_to_vec_and_hash keys with
  | .error e => .error e
  | .ok (key_codes, key_codes_hash) =>
    match alookup s.actions key_codes_hash with
    | none => .error (.ActionDoesNotExist .Actions)
    | some am =>
      match am.remove_action action_name with
      | .error e => .error e
      | .ok am2 =>
        if 1 ≤ am2.actions.length then
          .ok { s with actions := ainsert s.actions key_codes_hash am2 }
        else
          let p := retain_hash_fold s.reverse_lookup key_codes key_codes_hash
          .ok { s with
            actions := aerase s.actions key_codes_hash
            reverse_lookup := remove_empty_fold p.1 p.2 }

/-- The body of `poll`'s per-fingerprint loop: update the drained key's
timestamp in the group, and if the group is now fully pressed emit its action
names (in stored order) to the sink.  The source's `None => unreachable!()`
branch is modelled as a no-op; the no-panic claim shows it is dead. -/
def pollAction (key : KeyCode) (st : HotkeyListener) (h : Nat) : HotkeyListener :=
  match alookup st.actions h with
  | some am =>
    let am2 := am.press_key key st.now
    let st2 := { st with actions := ainsert st.actions h am2 }
    if am2.is_pressed st2.now st2.min_elapsed_time then
      { st2 with sent := st2.sent ++ am2.actions }
    else st2
  | none => st

/-- `HotkeyListener::poll`: return immediately when the channel is empty,
otherwise drain exactly one key event and process the fingerprints listed
under it. -/
def HotkeyListener.poll (s : HotkeyListener) : HotkeyListener :=
  match s.channel with
  | [] => s
  | key :: rest =>
    let s1 := { s with channel := rest }
    match alookup s1.reverse_lookup key with
    | none => s1
    | some v => v.foldl (pollAction key) s1

/-- `HotkeyListener::set_min_elapsed_time`.  Modelled from the spec: the
source takes an `f32` of seconds and converts via `Duration::from_secs_f32`;
the floating-point conversion is elided and the model takes the duration
directly. -/
def HotkeyListener.set_min_elapsed_time (s : HotkeyListener)
    (min_elapsed_time : Int) : HotkeyListener :=
  { s with min_elapsed_time := min_elapsed_time }

/-- States reachable from a fresh listener by successful engine calls,
interleaved with environment steps: the hook callback enqueuing a key event,
the clock advancing, and the window being reconfigured. -/
inductive Reachable : HotkeyListener → Prop
  | init (now : Int) : Reachable (HotkeyListener.new now)
  | register (s s2 : HotkeyListener) (a : String) (ks : List String) :
      Reachable s → s.register_action a ks = .ok s2 → Reachable s2
  | unregister (s s2 : HotkeyListener) (a : String) (ks : List String) :
      Reachable s → s.unregister_action a ks = .ok s2 → Reachable s2
  | poll (s : HotkeyListener) : Reachable s → Reachable s.poll
  | enqueue (s : HotkeyListener) (k : KeyCode) :
      Reachable s → Reachable { s with channel := s.channel ++ [k] }
  | tick (s : HotkeyListener) (d : Int) :
      Reachable s → 0 ≤ d → Reachable { s with now := s.now + d }
  | setMin (s : HotkeyListener) (m : Int) :
      Reachable s → 0 ≤ m → Reachable (s.set_min_elapsed_time m)

/-! ### Association-list lemmas -/

/-- The key set of an association map is duplicate-free.  All maps the engine
builds satisfy this. -/
def NoDupKeys {α β : Type} (l : List (α × β)) : Prop :=
  (l.map Prod.fst).Nodup

theorem alookup_ainsert_self {α β : Type} [DecidableEq α] (l : List (α × β))
    (x : α) (y : β) : alookup (ainsert l x y) x = some y := by
  induction l with
  | nil => simp [ainsert, alookup]
  | cons p t ih =>
    obtain ⟨a, b⟩ := p
    by_cases h : a = x
    · simp [ainsert, h, alookup]
    · simp [ainsert, h, alookup, ih]

theorem alookup_ainsert_ne {α β : Type} [DecidableEq α] (l : List (α × β))
    (x z : α) (y : β) (hne : x ≠ z) : alookup (ainsert l x y) z = alookup l z := by
  induction l with
  | nil => simp [ainsert, alookup, hne]
  | cons p t ih =>
    obtain ⟨a, b⟩ := p
    by_cases h : a = x
    · subst h
      simp [ainsert, alookup, hne, ih]
    · simp only [ainsert, if_neg h]
      by_cases h2 : a = z
      · simp [alookup, h2]
      · simp [alookup, h2, ih]

theorem alookup_aerase_ne {α β : Type} [DecidableEq α] (l : List (α × β))
    (x z : α) (hne : x ≠ z) : alookup (aerase l x) z = alookup l z := by
  induction l with
  | nil => simp [aerase]
  | cons p t ih =>
    obtain ⟨a, b⟩ := p
    by_cases h : a = x
    · subst h
      have he : aerase ((a, b) :: t) a = t := by simp [aerase]
      rw [he, alookup, if_neg hne]
    · have he : aerase ((a, b) :: t) x = (a, b) :: aerase t x := by
        simp [aerase, h]
      rw [he]
      by_cases h2 : a = z
      · simp [alookup, h2]
      · simp [alookup, h2, ih]

theorem acontains_iff_mem {α β : Type} [DecidableEq α] (l : List (α × β))
    (x : α) : acontains l x = true ↔ x ∈ l.map Prod.fst := by
  induction l with
  | nil => simp [acontains, alookup]
  | cons p t ih =>
    obtain ⟨a, b⟩ := p
    by_cases h : a = x
    · simp [acontains, alookup, h]
    · simp only [acontains, alookup, if_pos, if_neg h, List.map_cons, List.mem_cons]
      rw [acontains] at ih
      rw [ih]
      constructor
      · intro hm
        exact Or.inr hm
      · intro hm
        rcases hm with hm | hm
        · exact absurd hm.symm h
        · exact hm

theorem alookup_isSome_of_some {α β : Type} [DecidableEq α] {l : List (α × β)}
    {x : α} {y : β} (h : alookup l x = some y) : acontains l x = true := by
  simp [acontains, h]

theorem alookup_eq_none_iff {α β : Type} [DecidableEq α] (l : List (α × β))
    (x : α) : alookup l x = none ↔ x ∉ l.map Prod.fst := by
  constructor
  · intro h hm
    rw [← acontains_iff_mem] at hm
    rw [acontains, h] at hm
    simp at hm
  · intro h
    cases hl : alookup l x with
    | none => rfl
    | some y =>
      exact absurd ((acontains_iff_mem l x).mp (alookup_isSome_of_some hl)) h

theorem mem_map_fst_ainsert {α β : Type} [DecidableEq α] (l : List (α × β))
    (x z : α) (y : β) :
    z ∈ (ainsert l x y).map Prod.fst ↔ z = x ∨ z ∈ l.map Prod.fst := by
  induction l with
  | nil => simp [ainsert]
  | cons p t ih =>
    obtain ⟨a, b⟩ := p
    by_cases h : a = x
    · subst h
      simp [ainsert]
    · simp only [ainsert, if_neg h, List.map_cons, List.mem_cons, ih]
      tauto

theorem nodupkeys_ainsert {α β : Type} [DecidableEq α] (l : List (α × β))
    (x : α) (y : β) (h : NoDupKeys l) : NoDupKeys (ainsert l x y) := by
  induction l with
  | nil => simp [ainsert, NoDupKeys]
  | cons p t ih =>
    obtain ⟨a, b⟩ := p
    rw [NoDupKeys, List.map_cons, List.nodup_cons] at h
    by_cases hax : a = x
    · subst hax
      have he : ainsert ((a, b) :: t) a y = (a, y) :: t := by simp [ainsert]
      rw [NoDupKeys, he, List.map_cons, List.nodup_cons]
      exact h
    · have he : ainsert ((a, b) :: t) x y = (a, b) :: ainsert t x y := by
        simp [ainsert, hax]
      rw [NoDupKeys, he, List.map_cons, List.nodup_cons]
      refine ⟨?_, ih h.2⟩
      intro hmem
      rcases (mem_map_fst_ainsert t x a y).mp hmem with h1 | h1
      · exact hax h1
      · exact h.1 h1

theorem mem_map_fst_aerase {α β : Type} [DecidableEq α] (l : List (α × β))
    (x z : α) (h : z ∈ (aerase l x).map Prod.fst) : z ∈ l.map Prod.fst := by
  induction l with
  | nil =>
    rw [aerase] at h
    exact h
  | cons p t ih =>
    obtain ⟨a, b⟩ := p
    by_cases hax : a = x
    · subst hax
      have he : aerase ((a, b) :: t) a = t := by simp [aerase]
      rw [he] at h
      simp [h]
    · have he : aerase ((a, b) :: t) x = (a, b) :: aerase t x := by
        simp [aerase, hax]
      rw [he] at h
      simp only [List.map_cons, List.mem_cons] at h ⊢
      rcases h with h | h
      · exact Or.inl h
      · exact Or.inr (ih h)

theorem nodupkeys_aerase {α β : Type} [DecidableEq α] (l : List (α × β))
    (x : α) (h : NoDupKeys l) : NoDupKeys (aerase l x) := by
  induction l with
  | nil => simpa [aerase] using h
  | cons p t ih =>
    obtain ⟨a, b⟩ := p
    rw [NoDupKeys, List.map_cons, List.nodup_cons] at h
    by_cases hax : a = x
    · subst hax
      have he : aerase ((a, b) :: t) a = t := by simp [aerase]
      rw [he]
      exact h.2
    · have he : aerase ((a, b) :: t) x = (a, b) :: aerase t x := by
        simp [aerase, hax]
      rw [NoDupKeys, he, List.map_cons, List.nodup_cons]
      refine ⟨?_, ih h.2⟩
      intro hmem
      exact h.1 (mem_map_fst_aerase t x a hmem)

theorem alookup_aerase_self {α β : Type} [DecidableEq α] (l : List (α × β))
    (x : α) (h : NoDupKeys l) : alookup (aerase l x) x = none := by
  induction l with
  | nil => simp [aerase, alookup]
  | cons p t ih =>
    obtain ⟨a, b⟩ := p
    rw [NoDupKeys, List.map_cons, List.nodup_cons] at h
    by_cases hax : a = x
    · subst hax
      have he : aerase ((a, b) :: t) a = t := by simp [aerase]
      rw [he, alookup_eq_none_iff]
      exact h.1
    · have he : aerase ((a, b) :: t) x = (a, b) :: aerase t x := by
        simp [aerase, hax]
      rw [he, alookup, if_neg hax]
      exact ih h.2

/-! ### `press_key`, `is_pressed` and `ActionMapping.new` lemmas -/

theorem press_key_actions (am : ActionMapping) (key : KeyCode) (now : Int) :
    (am.press_key key now).actions = am.actions := rfl

theorem press_key_map_fst (am : ActionMapping) (key : KeyCode) (now : Int) :
    (am.press_key key now).keys.map Prod.fst = am.keys.map Prod.fst := by
  rw [ActionMapping.press_key]
  induction am.keys with
  | nil => rfl
  | cons p t ih =>
    obtain ⟨a, b⟩ := p
    by_cases h : a = key
    · simp [h, ih]
    · simp [h, ih]

theorem acontains_press_key (am : ActionMapping) (key k : KeyCode) (now : Int) :
    acontains (am.press_key key now).keys k = acontains am.keys k := by
  by_cases h : acontains am.keys k = true
  · have h2 := (acontains_iff_mem _ _).mp h
    rw [h]
    rw [← press_key_map_fst am key now] at h2
    exact (acontains_iff_mem _ _).mpr h2
  · rw [Bool.not_eq_true] at h
    rw [h]
    rw [← Bool.not_eq_true] at h ⊢
    intro h2
    apply h
    have h3 := (acontains_iff_mem _ _).mp h2
    rw [press_key_map_fst am key now] at h3
    exact (acontains_iff_mem _ _).mpr h3

theorem alookup_map_update_self (key : KeyCode) (now : Int) :
    ∀ l : List (KeyCode × Int), key ∈ l.map Prod.fst →
      alookup (l.map (fun p => if p.1 = key then (key, now) else p)) key
        = some now := by
  intro l
  induction l with
  | nil =>
    intro h
    cases h
  | cons q t ih =>
    intro h
    obtain ⟨a, b⟩ := q
    by_cases hak : a = key
    · subst hak
      simp only [List.map_cons, if_true]
      rw [alookup, if_pos rfl]
    · have h1 : key ∈ t.map Prod.fst := by
        simp only [List.map_cons, List.mem_cons] at h
        rcases h with h | h
        · exact absurd h.symm hak
        · exact h
      simp only [List.map_cons]
      rw [if_neg hak, alookup, if_neg hak]
      exact ih h1

theorem alookup_map_update_ne (key k : KeyCode) (now : Int) (hne : k ≠ key) :
    ∀ l : List (KeyCode × Int),
      alookup (l.map (fun p => if p.1 = key then (key, now) else p)) k
        = alookup l k := by
  intro l
  induction l with
  | nil => rfl
  | cons q t ih =>
    obtain ⟨a, b⟩ := q
    by_cases hak : a = key
    · subst hak
      have hk : ¬ a = k := fun hh => hne hh.symm
      simp only [List.map_cons, if_true]
      rw [alookup, if_neg hk, alookup, if_neg hk]
      exact ih
    · simp only [List.map_cons]
      rw [if_neg hak, alookup, alookup]
      by_cases h2 : a = k
      · simp [h2]
      · simp only [if_neg h2]
        exact ih

theorem alookup_press_key_self (am : ActionMapping) (key : KeyCode) (now : Int)
    (h : acontains am.keys key = true) :
    alookup (am.press_key key now).keys key = some now :=
  alookup_map_update_self key now am.keys ((acontains_iff_mem _ _).mp h)

theorem alookup_press_key_ne (am : ActionMapping) (key k : KeyCode) (now : Int)
    (h : k ≠ key) :
    alookup (am.press_key key now).keys k = alookup am.keys k :=
  alookup_map_update_ne key k now h am.keys

theorem acontains_foldl_ainsert (v : Int) :
    ∀ (kc : List KeyCode) (m : List (KeyCode × Int)) (k : KeyCode),
      acontains (kc.foldl (fun hm key => ainsert hm key v) m) k = true ↔
        k ∈ kc ∨ acontains m k = true := by
  intro kc
  induction kc with
  | nil => simp
  | cons c t ih =>
    intro m k
    simp only [List.foldl_cons, List.mem_cons]
    rw [ih]
    constructor
    · intro h
      rcases h with h | h
      · exact Or.inl (Or.inr h)
      · by_cases hck : c = k
        · exact Or.inl (Or.inl hck.symm)
        · rw [acontains, alookup_ainsert_ne _ _ _ _ hck] at h
          exact Or.inr h
    · intro h
      rcases h with (h | h) | h
      · subst h
        exact Or.inr (by rw [acontains, alookup_ainsert_self]; rfl)
      · exact Or.inl h
      · by_cases hck : c = k
        · subst hck
          exact Or.inr (by rw [acontains, alookup_ainsert_self]; rfl)
        · rw [Or.comm]
          exact Or.inl (by rw [acontains, alookup_ainsert_ne _ _ _ _ hck]; exact h)

theorem acontains_new_keys (kc : List KeyCode) (now : Int) (k : KeyCode) :
    acontains (ActionMapping.new kc now).keys k = true ↔ k ∈ kc := by
  rw [ActionMapping.new]
  rw [acontains_foldl_ainsert]
  simp [acontains, alookup]

theorem nodupkeys_new_keys (kc : List KeyCode) (now : Int) :
    NoDupKeys (ActionMapping.new kc now).keys := by
  rw [ActionMapping.new]
  have : ∀ (l : List KeyCode) (m : List (KeyCode × Int)), NoDupKeys m →
      NoDupKeys (l.foldl (fun hm key => ainsert hm key (now - initOffset)) m) := by
    intro l
    induction l with
    | nil => intro m hm; exact hm
    | cons c t ih =>
      intro m hm
      exact ih _ (nodupkeys_ainsert _ _ _ hm)
  exact this kc [] (by simp [NoDupKeys])

/-! ### Hash and canonicalization lemmas -/

theorem get_hash_inj : ∀ {l1 l2 : List KeyCode},
    get_hash l1 = get_hash l2 → l1 = l2 := by
  intro l1
  induction l1 with
  | nil =>
    intro l2 h
    cases l2 with
    | nil => rfl
    | cons k t => simp [get_hash] at h
  | cons k t ih =>
    intro l2 h
    cases l2 with
    | nil => simp [get_hash] at h
    | cons k2 t2 =>
      simp only [get_hash, List.foldr_cons, Nat.add_right_cancel_iff] at h
      rw [Nat.pair_eq_pair] at h
      rw [h.1, ih (h.2 : get_hash t = get_hash t2)]

theorem charListLeb_cons_iff (c d : Char) (cs ds : List Char) :
    charListLeb (c :: cs) (d :: ds) = true ↔
      c.toNat < d.toNat ∨ (c.toNat = d.toNat ∧ charListLeb cs ds = true) := by
  by_cases h1 : c.toNat < d.toNat
  · simp [charListLeb, h1]
  · by_cases h2 : d.toNat < c.toNat
    · simp only [charListLeb, if_neg h1, if_pos h2]
      constructor
      · intro hx
        cases hx
      · intro hx
        rcases hx with hx | hx
        · omega
        · omega
    · have he : c.toNat = d.toNat := by omega
      simp [charListLeb, h1, h2, he]

theorem charListLeb_total : ∀ xs ys : List Char,
    charListLeb xs ys = true ∨ charListLeb ys xs = true := by
  intro xs
  induction xs with
  | nil =>
    intro ys
    exact Or.inl rfl
  | cons c cs ih =>
    intro ys
    cases ys with
    | nil => exact Or.inr rfl
    | cons d ds =>
      rw [charListLeb_cons_iff, charListLeb_cons_iff]
      by_cases h1 : c.toNat < d.toNat
      · exact Or.inl (Or.inl h1)
      · by_cases h2 : d.toNat < c.toNat
        · exact Or.inr (Or.inl h2)
        · have he : c.toNat = d.toNat := by omega
          rcases ih ds with h | h
          · exact Or.inl (Or.inr ⟨he, h⟩)
          · exact Or.inr (Or.inr ⟨he.symm, h⟩)

theorem charListLeb_trans : ∀ xs ys zs : List Char, charListLeb xs ys = true →
    charListLeb ys zs = true → charListLeb xs zs = true := by
  intro xs
  induction xs with
  | nil =>
    intro ys zs h1 h2
    rfl
  | cons c cs ih =>
    intro ys zs h1 h2
    cases ys with
    | nil =>
      rw [charListLeb] at h1
      cases h1
    | cons d ds =>
      cases zs with
      | nil =>
        rw [charListLeb] at h2
        cases h2
      | cons e es =>
        rw [charListLeb_cons_iff] at h1 h2 ⊢
        rcases h1 with h1 | ⟨h1e, h1t⟩
        · rcases h2 with h2 | ⟨h2e, h2t⟩
          · exact Or.inl (by omega)
          · exact Or.inl (by omega)
        · rcases h2 with h2 | ⟨h2e, h2t⟩
          · exact Or.inl (by omega)
          · exact Or.inr ⟨by omega, ih ds es h1t h2t⟩

theorem charListLeb_antisymm : ∀ xs ys : List Char, charListLeb xs ys = true →
    charListLeb ys xs = true → xs = ys := by
  intro xs
  induction xs with
  | nil =>
    intro ys h1 h2
    cases ys with
    | nil => rfl
    | cons d ds =>
      rw [charListLeb] at h2
      cases h2
  | cons c cs ih =>
    intro ys h1 h2
    cases ys with
    | nil =>
      rw [charListLeb] at h1
      cases h1
    | cons d ds =>
      rw [charListLeb_cons_iff] at h1 h2
      rcases h1 with h1 | ⟨h1e, h1t⟩
      · rcases h2 with h2 | ⟨h2e, h2t⟩
        · omega
        · omega
      · rcases h2 with h2 | ⟨h2e, h2t⟩
        · omega
        · have hcd : c = d := by
            have hv : c.val = d.val := UInt32.toNat.inj h1e
            exact Char.ext hv
          rw [hcd, ih ds h1t h2t]

instance : IsTotal String (fun a b => string_le a b = true) :=
  ⟨fun a b => charListLeb_total a.data b.data⟩

instance : IsTrans String (fun a b => string_le a b = true) :=
  ⟨fun a b c => charListLeb_trans a.data b.data c.data⟩

instance : IsAntisymm String (fun a b => string_le a b = true) :=
  ⟨fun a b h1 h2 => by
    have hd := charListLeb_antisymm a.data b.data h1 h2
    cases a
    cases b
    simp_all⟩

theorem insertionSort_eq_of_perm (l1 l2 : List String) (h : l1.Perm l2) :
    List.insertionSort (fun a b => string_le a b = true) l1
      = List.insertionSort (fun a b => string_le a b = true) l2 := by
  have hs1 := List.sorted_insertionSort (fun a b : String => string_le a b = true) l1
  have hs2 := List.sorted_insertionSort (fun a b : String => string_le a b = true) l2
  have hp := ((List.perm_insertionSort
      (fun a b : String => string_le a b = true) l1).trans h).trans
    (List.perm_insertionSort (fun a b : String => string_le a b = true) l2).symm
  exact List.eq_of_perm_of_sorted hp hs1 hs2

theorem s2h_eq_of_perm (l1 l2 : List String) (h : l1.Perm l2) :
    string_slice_to_vec_and_hash l1 = string_slice_to_vec_and_hash l2 := by
  rw [string_slice_to_vec_and_hash, string_slice_to_vec_and_hash]
  rw [insertionSort_eq_of_perm l1 l2 h]

theorem s2h_hash_eq (keys : List String) (kc : List KeyCode) (h : Nat)
    (hok : string_slice_to_vec_and_hash keys = .ok (kc, h)) : get_hash kc = h := by
  rw [string_slice_to_vec_and_hash] at hok
  cases hp : parse_key_codes
      (List.insertionSort (fun a b => string_le a b = true) keys) with
  | ok v =>
    rw [hp] at hok
    simp only [Except.ok.injEq, Prod.mk.injEq] at hok
    rw [← hok.1, ← hok.2]
  | error e =>
    rw [hp] at hok
    cases hok

/-! ### Characterization of the register reverse-lookup loop -/

/-- The effect of one reverse-lookup registration on a single key's
fingerprint list. -/
def addIfAbsent (v : List Nat) (h : Nat) : List Nat :=
  if h ∈ v then v else v ++ [h]

theorem addIfAbsent_idem (v : List Nat) (h : Nat) :
    addIfAbsent (addIfAbsent v h) h = addIfAbsent v h := by
  by_cases hm : h ∈ v
  · simp [addIfAbsent, hm]
  · simp [addIfAbsent, hm]

theorem mem_addIfAbsent (v : List Nat) (h x : Nat) :
    x ∈ addIfAbsent v h ↔ x = h ∨ x ∈ v := by
  by_cases hm : h ∈ v
  · simp only [addIfAbsent, if_pos hm]
    constructor
    · intro hx
      exact Or.inr hx
    · intro hx
      rcases hx with hx | hx
      · rw [hx]; exact hm
      · exact hx
  · simp only [addIfAbsent, if_neg hm, List.mem_append, List.mem_singleton]
    tauto

theorem rkf_lookup (h : Nat) : ∀ (kc : List KeyCode)
    (rl : List (KeyCode × List Nat)) (k : KeyCode),
    alookup (register_keys_fold rl kc h) k =
      if k ∈ kc then some (addIfAbsent ((alookup rl k).getD []) h)
      else alookup rl k := by
  intro kc
  induction kc with
  | nil =>
    intro rl k
    simp [register_keys_fold]
  | cons c t ih =>
    intro rl k
    have hstep : register_keys_fold rl (c :: t) h =
        register_keys_fold
          (match alookup rl c with
            | some v => if h ∈ v then rl else ainsert rl c (v ++ [h])
            | none => ainsert rl c [h]) t h := by
      rw [register_keys_fold, register_keys_fold, List.foldl_cons]
    set rl1 : List (KeyCode × List Nat) :=
      (match alookup rl c with
        | some v => if h ∈ v then rl else ainsert rl c (v ++ [h])
        | none => ainsert rl c [h]) with hrl1
    have hself : alookup rl1 c = some (addIfAbsent ((alookup rl c).getD []) h) := by
      rw [hrl1]
      cases hv : alookup rl c with
      | some v =>
        by_cases hmem : h ∈ v
        · simp [hv, hmem, addIfAbsent]
        · simp [hv, hmem, addIfAbsent, alookup_ainsert_self]
      | none => simp [hv, addIfAbsent, alookup_ainsert_self]
    have hne : ∀ k2, k2 ≠ c → alookup rl1 k2 = alookup rl k2 := by
      intro k2 hk2
      rw [hrl1]
      cases hv : alookup rl c with
      | some v =>
        by_cases hmem : h ∈ v
        · simp [hv, hmem]
        · simp only [hv, if_neg hmem]
          exact alookup_ainsert_ne _ _ _ _ (fun hh => hk2 hh.symm)
      | none =>
        simp only [hv]
        exact alookup_ainsert_ne _ _ _ _ (fun hh => hk2 hh.symm)
    rw [hstep, ih rl1 k]
    by_cases hkc : k = c
    · subst hkc
      by_cases hkt : k ∈ t
      · rw [if_pos hkt, if_pos (List.mem_cons_self k t), hself]
        simp only [Option.getD_some]
        rw [addIfAbsent_idem]
      · rw [if_neg hkt, if_pos (List.mem_cons_self k t), hself]
    · have hmemc : (k ∈ c :: t) ↔ (k ∈ t) := by
        rw [List.mem_cons]
        constructor
        · intro hx
          rcases hx with hx | hx
          · exact absurd hx hkc
          · exact hx
        · intro hx
          exact Or.inr hx
      by_cases hkt : k ∈ t
      · rw [if_pos hkt, if_pos (hmemc.mpr hkt), hne k hkc]
      · rw [if_neg hkt, if_neg (fun hx => hkt (hmemc.mp hx)), hne k hkc]

theorem rkf_nodupkeys (h : Nat) : ∀ (kc : List KeyCode)
    (rl : List (KeyCode × List Nat)), NoDupKeys rl →
    NoDupKeys (register_keys_fold rl kc h) := by
  intro kc
  induction kc with
  | nil =>
    intro rl hrl
    exact hrl
  | cons c t ih =>
    intro rl hrl
    have hstep : register_keys_fold rl (c :: t) h =
        register_keys_fold
          (match alookup rl c with
            | some v => if h ∈ v then rl else ainsert rl c (v ++ [h])
            | none => ainsert rl c [h]) t h := by
      rw [register_keys_fold, register_keys_fold, List.foldl_cons]
    rw [hstep]
    apply ih
    cases hv : alookup rl c with
    | some v =>
      by_cases hmem : h ∈ v
      · simp only [hv, if_pos hmem]
        exact hrl
      · simp only [hv, if_neg hmem]
        exact nodupkeys_ainsert _ _ _ hrl
    | none =>
      simp only [hv]
      exact nodupkeys_ainsert _ _ _ hrl

/-! ### Characterization of the unregister loops -/

theorem filter_filter_self {α : Type} (f : α → Bool) (l : List α) :
    (l.filter f).filter f = l.filter f := by
  rw [List.filter_filter]
  congr 1
  funext a
  rw [Bool.and_self]

theorem mem_ite_append {b : Bool} {ek : List KeyCode} {c k : KeyCode} :
    (k ∈ if b = true then ek ++ [c] else ek) ↔ k ∈ ek ∨ (b = true ∧ k = c) := by
  cases b with
  | false => simp
  | true => simp [List.mem_append]

theorem rhf_aux (h : Nat) : ∀ (kc : List KeyCode)
    (rl : List (KeyCode × List Nat)) (ek : List KeyCode),
    (∀ k, alookup (kc.foldl (retain_step h) (rl, ek)).1 k =
        if k ∈ kc then (alookup rl k).map (fun v => v.filter (fun x => x != h))
        else alookup rl k) ∧
    (∀ k, k ∈ (kc.foldl (retain_step h) (rl, ek)).2 ↔
        k ∈ ek ∨ (k ∈ kc ∧ ∃ v, alookup rl k = some v ∧
          v.filter (fun x => x != h) = [])) := by
  intro kc
  induction kc with
  | nil =>
    intro rl ek
    constructor
    · intro k
      simp
    · intro k
      simp
  | cons c t ih =>
    intro rl ek
    rw [List.foldl_cons]
    cases hv : alookup rl c with
    | some v =>
      have hrs : retain_step h (rl, ek) c =
          (ainsert rl c (v.filter (fun x => x != h)),
            if (v.filter (fun x => x != h)).isEmpty then ek ++ [c] else ek) := by
        simp [retain_step, hv]
      rw [hrs]
      obtain ⟨ih1, ih2⟩ := ih (ainsert rl c (v.filter (fun x => x != h)))
        (if (v.filter (fun x => x != h)).isEmpty then ek ++ [c] else ek)
      constructor
      · intro k
        rw [ih1 k]
        by_cases hkc : k = c
        · subst hkc
          rw [if_pos (List.mem_cons_self k t), hv]
          by_cases hkt : k ∈ t
          · rw [if_pos hkt, alookup_ainsert_self, Option.map_some', filter_filter_self,
              Option.map_some']
          · rw [if_neg hkt, alookup_ainsert_self]
            rfl
        · rw [alookup_ainsert_ne _ _ _ _ (fun hh => hkc hh.symm)]
          by_cases hkt : k ∈ t
          · rw [if_pos hkt, if_pos (List.mem_cons_of_mem c hkt)]
          · rw [if_neg hkt, if_neg ?_]
            intro hx
            rcases List.mem_cons.mp hx with hx | hx
            · exact hkc hx
            · exact hkt hx
      · intro k
        rw [ih2 k]
        have hek2 : (k ∈ if (v.filter (fun x => x != h)).isEmpty = true
              then ek ++ [c] else ek) ↔
            k ∈ ek ∨ ((v.filter (fun x => x != h)).isEmpty = true ∧ k = c) :=
          mem_ite_append
        rw [hek2]
        by_cases hkc : k = c
        · subst hkc
          constructor
          · intro hx
            rcases hx with (hx | hx) | hx
            · exact Or.inl hx
            · refine Or.inr ⟨List.mem_cons_self k t, v, hv, ?_⟩
              rw [← List.isEmpty_iff]
              exact hx.1
            · obtain ⟨hkt, v1, hv1, hf1⟩ := hx
              rw [alookup_ainsert_self] at hv1
              cases hv1
              refine Or.inr ⟨List.mem_cons_self k t, v, hv, ?_⟩
              rw [← hf1, filter_filter_self]
          · intro hx
            rcases hx with hx | hx
            · exact Or.inl (Or.inl hx)
            · obtain ⟨hkt, v1, hv1, hf1⟩ := hx
              rw [hv] at hv1
              cases hv1
              refine Or.inl (Or.inr ⟨?_, rfl⟩)
              rw [List.isEmpty_iff]
              exact hf1
        · have hlk : alookup (ainsert rl c (v.filter (fun x => x != h))) k
              = alookup rl k :=
            alookup_ainsert_ne _ _ _ _ (fun hh => hkc hh.symm)
          rw [hlk]
          constructor
          · intro hx
            rcases hx with (hx | hx) | hx
            · exact Or.inl hx
            · exact absurd hx.2 hkc
            · exact Or.inr ⟨List.mem_cons_of_mem c hx.1, hx.2⟩
          · intro hx
            rcases hx with hx | hx
            · exact Or.inl (Or.inl hx)
            · obtain ⟨hkt, hx2⟩ := hx
              rcases List.mem_cons.mp hkt with hx1 | hx1
              · exact absurd hx1 hkc
              · exact Or.inr ⟨hx1, hx2⟩
    | none =>
      have hrs : retain_step h (rl, ek) c = (rl, ek) := by
        simp [retain_step, hv]
      rw [hrs]
      obtain ⟨ih1, ih2⟩ := ih rl ek
      constructor
      · intro k
        rw [ih1 k]
        by_cases hkc : k = c
        · subst hkc
          rw [if_pos (List.mem_cons_self k t), hv]
          by_cases hkt : k ∈ t
          · rw [if_pos hkt]
          · rw [if_neg hkt]
            rfl
        · by_cases hkt : k ∈ t
          · rw [if_pos hkt, if_pos (List.mem_cons_of_mem c hkt)]
          · rw [if_neg hkt, if_neg ?_]
            intro hx
            rcases List.mem_cons.mp hx with hx | hx
            · exact hkc hx
            · exact hkt hx
      · intro k
        rw [ih2 k]
        by_cases hkc : k = c
        · subst hkc
          constructor
          · intro hx
            rcases hx with hx | hx
            · exact Or.inl hx
            · exact Or.inr ⟨List.mem_cons_of_mem _ hx.1, hx.2⟩
          · intro hx
            rcases hx with hx | hx
            · exact Or.inl hx
            · obtain ⟨hkt, v1, hv1, hf1⟩ := hx
              rw [hv] at hv1
              cases hv1
        · constructor
          · intro hx
            rcases hx with hx | hx
            · exact Or.inl hx
            · exact Or.inr ⟨List.mem_cons_of_mem c hx.1, hx.2⟩
          · intro hx
            rcases hx with hx | hx
            · exact Or.inl hx
            · obtain ⟨hkt, hx2⟩ := hx
              rcases List.mem_cons.mp hkt with hx1 | hx1
              · exact absurd hx1 hkc
              · exact Or.inr ⟨hx1, hx2⟩

theorem rhf_lookup (rl : List (KeyCode × List Nat)) (kc : List KeyCode)
    (h : Nat) (k : KeyCode) :
    alookup (retain_hash_fold rl kc h).1 k =
      if k ∈ kc then (alookup rl k).map (fun v => v.filter (fun x => x != h))
      else alookup rl k := by
  rw [retain_hash_fold]
  exact (rhf_aux h kc rl []).1 k

theorem rhf_ek_mem (rl : List (KeyCode × List Nat)) (kc : List KeyCode)
    (h : Nat) (k : KeyCode) :
    k ∈ (retain_hash_fold rl kc h).2 ↔
      k ∈ kc ∧ ∃ v, alookup rl k = some v ∧ v.filter (fun x => x != h) = [] := by
  rw [retain_hash_fold]
  rw [(rhf_aux h kc rl []).2 k]
  simp

theorem rhf_fold_nodupkeys (h : Nat) : ∀ (kc : List KeyCode)
    (rl : List (KeyCode × List Nat)) (ek : List KeyCode), NoDupKeys rl →
    NoDupKeys (kc.foldl (retain_step h) (rl, ek)).1 := by
  intro kc
  induction kc with
  | nil =>
    intro rl ek hrl
    exact hrl
  | cons c t ih =>
    intro rl ek hrl
    rw [List.foldl_cons]
    cases hv : alookup rl c with
    | some v =>
      have hrs : retain_step h (rl, ek) c =
          (ainsert rl c (v.filter (fun x => x != h)),
            if (v.filter (fun x => x != h)).isEmpty then ek ++ [c] else ek) := by
        simp [retain_step, hv]
      rw [hrs]
      exact ih _ _ (nodupkeys_ainsert _ _ _ hrl)
    | none =>
      have hrs : retain_step h (rl, ek) c = (rl, ek) := by
        simp [retain_step, hv]
      rw [hrs]
      exact ih _ _ hrl

theorem rhf_nodupkeys (rl : List (KeyCode × List Nat)) (kc : List KeyCode)
    (h : Nat) (hrl : NoDupKeys rl) : NoDupKeys (retain_hash_fold rl kc h).1 := by
  rw [retain_hash_fold]
  exact rhf_fold_nodupkeys h kc rl [] hrl

theorem ref_lookup : ∀ (ek : List KeyCode) (rl : List (KeyCode × List Nat))
    (k : KeyCode), NoDupKeys rl →
    alookup (remove_empty_fold rl ek) k = if k ∈ ek then none
      else alookup rl k := by
  intro ek
  induction ek with
  | nil =>
    intro rl k hrl
    simp [remove_empty_fold]
  | cons c t ih =>
    intro rl k hrl
    have hstep : remove_empty_fold rl (c :: t) = remove_empty_fold (aerase rl c) t := by
      rw [remove_empty_fold, remove_empty_fold, List.foldl_cons]
    rw [hstep, ih (aerase rl c) k (nodupkeys_aerase _ _ hrl)]
    by_cases hkc : k = c
    · subst hkc
      rw [if_pos (List.mem_cons_self k t)]
      by_cases hkt : k ∈ t
      · rw [if_pos hkt]
      · rw [if_neg hkt]
        exact alookup_aerase_self rl k hrl
    · by_cases hkt : k ∈ t
      · rw [if_pos hkt, if_pos (List.mem_cons_of_mem c hkt)]
      · rw [if_neg hkt, if_neg ?_, alookup_aerase_ne rl c k (fun hh => hkc hh.symm)]
        intro hx
        rcases List.mem_cons.mp hx with hx | hx
        · exact hkc hx
        · exact hkt hx

theorem ref_nodupkeys : ∀ (ek : List KeyCode) (rl : List (KeyCode × List Nat)),
    NoDupKeys rl → NoDupKeys (remove_empty_fold rl ek) := by
  intro ek
  induction ek with
  | nil =>
    intro rl hrl
    exact hrl
  | cons c t ih =>
    intro rl hrl
    have hstep : remove_empty_fold rl (c :: t) = remove_empty_fold (aerase rl c) t := by
      rw [remove_empty_fold, remove_empty_fold, List.foldl_cons]
    rw [hstep]
    exact ih _ (nodupkeys_aerase _ _ hrl)

/-! ### The engine invariant -/

/-- The structural invariant tying the actions table to the reverse index:
both maps are duplicate-free; a fingerprint listed under a key has a group
containing that key; a group's keys are all listed; and every group's key set
is exactly the constituent set of some key-code list hashing to its
fingerprint. -/
structure Inv (s : HotkeyListener) : Prop where
  ndA : NoDupKeys s.actions
  ndR : NoDupKeys s.reverse_lookup
  rlg : ∀ k hs h, alookup s.reverse_lookup k = some hs → h ∈ hs →
      ∃ am, alookup s.actions h = some am ∧ acontains am.keys k = true
  grl : ∀ h am k, alookup s.actions h = some am → acontains am.keys k = true →
      ∃ hs, alookup s.reverse_lookup k = some hs ∧ h ∈ hs
  prov : ∀ h am, alookup s.actions h = some am →
      ∃ kc, get_hash kc = h ∧ ∀ k, (acontains am.keys k = true ↔ k ∈ kc)

theorem add_action_ok {am : ActionMapping} {a : String} {am2 : ActionMapping}
    (h : am.add_action a = .ok am2) :
    am2.keys = am.keys ∧ am2.actions = am.actions ++ [a] ∧ a ∉ am.actions := by
  rw [ActionMapping.add_action] at h
  by_cases hm : a ∈ am.actions
  · rw [if_pos hm] at h
    cases h
  · rw [if_neg hm] at h
    injection h with h
    subst h
    exact ⟨rfl, rfl, hm⟩

theorem remove_action_ok {am : ActionMapping} {a : String} {am2 : ActionMapping}
    (h : am.remove_action a = .ok am2) :
    am2.keys = am.keys ∧ am2.actions = am.actions.filter (fun x => x != a) ∧
      a ∈ am.actions := by
  rw [ActionMapping.remove_action] at h
  by_cases hm : a ∈ am.actions
  · rw [if_pos hm] at h
    injection h with h
    subst h
    exact ⟨rfl, rfl, hm⟩
  · rw [if_neg hm] at h
    cases h

theorem inv_register_generic (s : HotkeyListener) (kc : List KeyCode) (h : Nat)
    (am2 : ActionMapping) (hinv : Inv s) (hh : get_hash kc = h)
    (hkeys : ∀ k, acontains am2.keys k = true ↔ k ∈ kc)
    (hold : ∀ am, alookup s.actions h = some am →
      ∀ k, (acontains am.keys k = true ↔ k ∈ kc)) :
    Inv { s with actions := ainsert s.actions h am2,
                 reverse_lookup := register_keys_fold s.reverse_lookup kc h } := by
  obtain ⟨ndA, ndR, rlg, grl, prov⟩ := hinv
  refine ⟨nodupkeys_ainsert _ _ _ ndA, rkf_nodupkeys h kc _ ndR, ?_, ?_, ?_⟩
  · intro k hs2 h2 hlk hmem
    rw [rkf_lookup h kc s.reverse_lookup k] at hlk
    by_cases hkkc : k ∈ kc
    · rw [if_pos hkkc] at hlk
      injection hlk with hlk
      subst hlk
      rcases (mem_addIfAbsent _ _ _).mp hmem with h2h | h2v
      · subst h2h
        exact ⟨am2, alookup_ainsert_self _ _ _, (hkeys k).mpr hkkc⟩
      · have hv : ∃ v, alookup s.reverse_lookup k = some v ∧ h2 ∈ v := by
          cases hvv : alookup s.reverse_lookup k with
          | none =>
            rw [hvv] at h2v
            simp at h2v
          | some v =>
            rw [hvv] at h2v
            simp only [Option.getD_some] at h2v
            exact ⟨v, rfl, h2v⟩
        obtain ⟨v, hv1, hv2⟩ := hv
        obtain ⟨am3, ham3, hc3⟩ := rlg k v h2 hv1 hv2
        by_cases hh2 : h2 = h
        · subst hh2
          exact ⟨am2, alookup_ainsert_self _ _ _,
            (hkeys k).mpr ((hold am3 ham3 k).mp hc3)⟩
        · refine ⟨am3, ?_, hc3⟩
          rw [alookup_ainsert_ne _ _ _ _ (fun hx => hh2 hx.symm)]
          exact ham3
    · rw [if_neg hkkc] at hlk
      obtain ⟨am3, ham3, hc3⟩ := rlg k hs2 h2 hlk hmem
      by_cases hh2 : h2 = h
      · subst hh2
        exact ⟨am2, alookup_ainsert_self _ _ _,
          (hkeys k).mpr ((hold am3 ham3 k).mp hc3)⟩
      · refine ⟨am3, ?_, hc3⟩
        rw [alookup_ainsert_ne _ _ _ _ (fun hx => hh2 hx.symm)]
        exact ham3
  · intro h2 am3 k ham3 hc3
    rw [rkf_lookup h kc s.reverse_lookup k]
    by_cases hh2 : h2 = h
    · subst hh2
      rw [alookup_ainsert_self] at ham3
      injection ham3 with ham3
      subst ham3
      have hkkc : k ∈ kc := (hkeys k).mp hc3
      rw [if_pos hkkc]
      exact ⟨addIfAbsent ((alookup s.reverse_lookup k).getD []) h2, rfl,
        (mem_addIfAbsent _ _ _).mpr (Or.inl rfl)⟩
    · rw [alookup_ainsert_ne _ _ _ _ (fun hx => hh2 hx.symm)] at ham3
      obtain ⟨hs, hhs1, hhs2⟩ := grl h2 am3 k ham3 hc3
      by_cases hkkc : k ∈ kc
      · rw [if_pos hkkc]
        refine ⟨_, rfl, ?_⟩
        rw [hhs1]
        simp only [Option.getD_some]
        exact (mem_addIfAbsent _ _ _).mpr (Or.inr hhs2)
      · rw [if_neg hkkc]
        exact ⟨hs, hhs1, hhs2⟩
  · intro h2 am3 ham3
    by_cases hh2 : h2 = h
    · subst hh2
      rw [alookup_ainsert_self] at ham3
      injection ham3 with ham3
      subst ham3
      exact ⟨kc, hh, hkeys⟩
    · rw [alookup_ainsert_ne _ _ _ _ (fun hx => hh2 hx.symm)] at ham3
      exact prov h2 am3 ham3

theorem register_preserves_inv (s s2 : HotkeyListener) (a : String)
    (ks : List String) (hinv : Inv s) (hok : s.register_action a ks = .ok s2) :
    Inv s2 := by
  rw [show s.register_action a ks = match string_slice_to_vec_and_hash ks with
    | .error e => .error e
    | .ok (key_codes, key_codes_hash) =>
      match alookup s.actions key_codes_hash with
      | some am =>
        match am.add_action a with
        | .error e => .error e
        | .ok am2 =>
          .ok { s with
            actions := ainsert s.actions key_codes_hash am2
            reverse_lookup := register_keys_fold s.reverse_lookup key_codes key_codes_hash }
      | none =>
        match (ActionMapping.new key_codes s.now).add_action a with
        | .error e => .error e
        | .ok am2 =>
          .ok { s with
            actions := ainsert s.actions key_codes_hash am2
            reverse_lookup := register_keys_fold s.reverse_lookup key_codes key_codes_hash }
    from rfl] at hok
  cases hcanon : string_slice_to_vec_and_hash ks with
  | error e =>
    rw [hcanon] at hok
    cases hok
  | ok p =>
    obtain ⟨kc, h⟩ := p
    simp only [hcanon] at hok
    have hh : get_hash kc = h := s2h_hash_eq ks kc h hcanon
    cases halook : alookup s.actions h with
    | some am =>
      simp only [halook] at hok
      cases hadd : am.add_action a with
      | error e =>
        simp only [hadd] at hok
        cases hok
      | ok am2 =>
        simp only [hadd] at hok
        injection hok with hok
        subst hok
        obtain ⟨hk2, -, -⟩ := add_action_ok hadd
        obtain ⟨kc1, hkc1, hkeys1⟩ := hinv.prov h am halook
        have hkc1kc : kc1 = kc := get_hash_inj (by rw [hkc1, hh])
        rw [hkc1kc] at hkeys1
        apply inv_register_generic s kc h am2 hinv hh
        · intro k
          rw [hk2]
          exact hkeys1 k
        · intro am4 ham4 k
          rw [halook] at ham4
          injection ham4 with ham4
          subst ham4
          exact hkeys1 k
    | none =>
      simp only [halook] at hok
      cases hadd : (ActionMapping.new kc s.now).add_action a with
      | error e =>
        simp only [hadd] at hok
        cases hok
      | ok am2 =>
        simp only [hadd] at hok
        injection hok with hok
        subst hok
        obtain ⟨hk2, -, -⟩ := add_action_ok hadd
        apply inv_register_generic s kc h am2 hinv hh
        · intro k
          rw [hk2]
          exact acontains_new_keys kc s.now k
        · intro am4 ham4
          rw [halook] at ham4
          cases ham4

theorem inv_congr (s1 s2 : HotkeyListener) (hA : s2.actions = s1.actions)
    (hR : s2.reverse_lookup = s1.reverse_lookup) (hinv : Inv s1) : Inv s2 := by
  obtain ⟨a1, a2, a3, a4, a5⟩ := hinv
  refine ⟨?_, ?_, ?_, ?_, ?_⟩
  · rw [hA]
    exact a1
  · rw [hR]
    exact a2
  · rw [hA, hR]
    exact a3
  · rw [hA, hR]
    exact a4
  · rw [hA]
    exact a5

theorem inv_replace_same_keys (s : HotkeyListener) (h : Nat)
    (am am2 : ActionMapping) (hinv : Inv s)
    (halook : alookup s.actions h = some am)
    (hkeys : ∀ k, acontains am2.keys k = acontains am.keys k) :
    Inv { s with actions := ainsert s.actions h am2 } := by
  obtain ⟨ndA, ndR, rlg, grl, prov⟩ := hinv
  refine ⟨nodupkeys_ainsert _ _ _ ndA, ndR, ?_, ?_, ?_⟩
  · intro k hs2 h2 hlk hmem
    obtain ⟨am3, ham3, hc3⟩ := rlg k hs2 h2 hlk hmem
    by_cases hh2 : h2 = h
    · subst hh2
      rw [halook] at ham3
      injection ham3 with ham3
      subst ham3
      refine ⟨am2, alookup_ainsert_self _ _ _, ?_⟩
      rw [hkeys k]
      exact hc3
    · refine ⟨am3, ?_, hc3⟩
      rw [alookup_ainsert_ne _ _ _ _ (fun hx => hh2 hx.symm)]
      exact ham3
  · intro h2 am3 k ham3 hc3
    by_cases hh2 : h2 = h
    · subst hh2
      rw [alookup_ainsert_self] at ham3
      injection ham3 with ham3
      subst ham3
      rw [hkeys k] at hc3
      exact grl _ am k halook hc3
    · rw [alookup_ainsert_ne _ _ _ _ (fun hx => hh2 hx.symm)] at ham3
      exact grl h2 am3 k ham3 hc3
  · intro h2 am3 ham3
    by_cases hh2 : h2 = h
    · subst hh2
      rw [alookup_ainsert_self] at ham3
      injection ham3 with ham3
      subst ham3
      obtain ⟨kc, hkc, hiff⟩ := prov _ am halook
      refine ⟨kc, hkc, fun k => ?_⟩
      rw [hkeys k]
      exact hiff k
    · rw [alookup_ainsert_ne _ _ _ _ (fun hx => hh2 hx.symm)] at ham3
      exact prov h2 am3 ham3

theorem unregister_preserves_inv (s s2 : HotkeyListener) (a : String)
    (ks : List String) (hinv : Inv s)
    (hok : s.unregister_action a ks = .ok s2) : Inv s2 := by
  rw [show s.unregister_action a ks = match string_slice_to_vec_and_hash ks with
    | .error e => .error e
    | .ok (key_codes, key_codes_hash) =>
      match alookup s.actions key_codes_hash with
      | none => .error (.ActionDoesNotExist .Actions)
      | some am =>
        match am.remove_action a with
        | .error e => .error e
        | .ok am2 =>
          if 1 ≤ am2.actions.length then
            .ok { s with actions := ainsert s.actions key_codes_hash am2 }
          else
            .ok { s with
              actions := aerase s.actions key_codes_hash
              reverse_lookup := remove_empty_fold
                (retain_hash_fold s.reverse_lookup key_codes key_codes_hash).1
                (retain_hash_fold s.reverse_lookup key_codes key_codes_hash).2 }
    from rfl] at hok
  cases hcanon : string_slice_to_vec_and_hash ks with
  | error e =>
    rw [hcanon] at hok
    cases hok
  | ok p =>
    obtain ⟨kc, h⟩ := p
    simp only [hcanon] at hok
    have hh : get_hash kc = h := s2h_hash_eq ks kc h hcanon
    cases halook : alookup s.actions h with
    | none =>
      simp only [halook] at hok
      cases hok
    | some am =>
      simp only [halook] at hok
      cases hrem : am.remove_action a with
      | error e =>
        simp only [hrem] at hok
        cases hok
      | ok am2 =>
        simp only [hrem] at hok
        by_cases hlen : 1 ≤ am2.actions.length
        · rw [if_pos hlen] at hok
          injection hok with hok
          subst hok
          obtain ⟨hk2, -, -⟩ := remove_action_ok hrem
          exact inv_replace_same_keys s h am am2 hinv halook (fun k => by rw [hk2])
        · rw [if_neg hlen] at hok
          injection hok with hok
          subst hok
          obtain ⟨ndA, ndR, rlg, grl, prov⟩ := hinv
          obtain ⟨kc1, hkc1, hiff⟩ := prov h am halook
          have hkc1kc : kc1 = kc := get_hash_inj (by rw [hkc1, hh])
          rw [hkc1kc] at hiff
          have hndR1 : NoDupKeys (retain_hash_fold s.reverse_lookup kc h).1 :=
            rhf_nodupkeys _ _ _ ndR
          have hlkR2 : ∀ k,
              alookup (remove_empty_fold (retain_hash_fold s.reverse_lookup kc h).1
                (retain_hash_fold s.reverse_lookup kc h).2) k =
              if k ∈ (retain_hash_fold s.reverse_lookup kc h).2 then none
              else alookup (retain_hash_fold s.reverse_lookup kc h).1 k :=
            fun k => ref_lookup _ _ k hndR1
          refine ⟨nodupkeys_aerase _ _ ndA, ref_nodupkeys _ _ hndR1, ?_, ?_, ?_⟩
          · intro k hs2 h2 hlk hmem
            rw [hlkR2 k] at hlk
            by_cases hek : k ∈ (retain_hash_fold s.reverse_lookup kc h).2
            · rw [if_pos hek] at hlk
              cases hlk
            · rw [if_neg hek, rhf_lookup] at hlk
              by_cases hkkc : k ∈ kc
              · rw [if_pos hkkc] at hlk
                cases hvv : alookup s.reverse_lookup k with
                | none =>
                  rw [hvv] at hlk
                  cases hlk
                | some v =>
                  rw [hvv, Option.map_some'] at hlk
                  injection hlk with hlk
                  rw [← hlk] at hmem
                  obtain ⟨hmv, hbne⟩ := List.mem_filter.mp hmem
                  have hneq : h2 ≠ h := by simpa using hbne
                  obtain ⟨am3, ham3, hc3⟩ := rlg k v h2 hvv hmv
                  refine ⟨am3, ?_, hc3⟩
                  rw [alookup_aerase_ne _ _ _ (fun hx => hneq hx.symm)]
                  exact ham3
              · rw [if_neg hkkc] at hlk
                obtain ⟨am3, ham3, hc3⟩ := rlg k hs2 h2 hlk hmem
                have hneq : h2 ≠ h := by
                  intro hE
                  subst hE
                  rw [halook] at ham3
                  injection ham3 with ham3
                  subst ham3
                  exact hkkc ((hiff k).mp hc3)
                refine ⟨am3, ?_, hc3⟩
                rw [alookup_aerase_ne _ _ _ (fun hx => hneq hx.symm)]
                exact ham3
          · intro h2 am3 k ham3 hc3
            have hneq : h2 ≠ h := by
              intro hE
              subst hE
              rw [alookup_aerase_self _ _ ndA] at ham3
              cases ham3
            rw [alookup_aerase_ne _ _ _ (fun hx => hneq hx.symm)] at ham3
            obtain ⟨hs, hhs1, hhs2⟩ := grl h2 am3 k ham3 hc3
            rw [hlkR2 k]
            have hek : k ∉ (retain_hash_fold s.reverse_lookup kc h).2 := by
              intro hk
              obtain ⟨hkkc, v, hv1, hv2⟩ := (rhf_ek_mem _ _ _ _).mp hk
              rw [hhs1] at hv1
              injection hv1 with hv1
              subst hv1
              have hmem2 : h2 ∈ hs.filter (fun x => x != h) :=
                List.mem_filter.mpr ⟨hhs2, by simpa using hneq⟩
              rw [hv2] at hmem2
              cases hmem2
            rw [if_neg hek, rhf_lookup]
            by_cases hkkc : k ∈ kc
            · rw [if_pos hkkc, hhs1, Option.map_some']
              exact ⟨_, rfl, List.mem_filter.mpr ⟨hhs2, by simpa using hneq⟩⟩
            · rw [if_neg hkkc]
              exact ⟨hs, hhs1, hhs2⟩
          · intro h2 am3 ham3
            have hneq : h2 ≠ h := by
              intro hE
              subst hE
              rw [alookup_aerase_self _ _ ndA] at ham3
              cases ham3
            rw [alookup_aerase_ne _ _ _ (fun hx => hneq hx.symm)] at ham3
            exact prov h2 am3 ham3

theorem pollAction_preserves_inv (key : KeyCode) (st : HotkeyListener) (h : Nat)
    (hinv : Inv st) : Inv (pollAction key st h) := by
  cases hv : alookup st.actions h with
  | none =>
    simp only [pollAction, hv]
    exact hinv
  | some am =>
    simp only [pollAction, hv]
    have hbase : Inv { st with
        actions := ainsert st.actions h (am.press_key key st.now) } :=
      inv_replace_same_keys st h am (am.press_key key st.now) hinv hv
        (fun k => acontains_press_key am key k st.now)
    by_cases hp : (am.press_key key st.now).is_pressed st.now st.min_elapsed_time
      = true
    · rw [if_pos hp]
      exact inv_congr { st with
        actions := ainsert st.actions h (am.press_key key st.now) } _ rfl rfl hbase
    · rw [if_neg hp]
      exact hbase

theorem poll_preserves_inv (s : HotkeyListener) (hinv : Inv s) : Inv s.poll := by
  cases hch : s.channel with
  | nil =>
    simp only [HotkeyListener.poll, hch]
    exact hinv
  | cons key rest =>
    simp only [HotkeyListener.poll, hch]
    have hinv1 : Inv { s with channel := rest } := inv_congr s _ rfl rfl hinv
    cases hrl : alookup ({ s with channel := rest } : HotkeyListener).reverse_lookup
        key with
    | none =>
      simp only [hrl]
      exact hinv1
    | some v =>
      simp only [hrl]
      have hfold : ∀ (l : List Nat) (st : HotkeyListener), Inv st →
          Inv (l.foldl (pollAction key) st) := by
        intro l
        induction l with
        | nil =>
          intro st hst
          exact hst
        | cons c t ih =>
          intro st hst
          rw [List.foldl_cons]
          exact ih _ (pollAction_preserves_inv key st c hst)
      exact hfold v _ hinv1

theorem inv_new (now : Int) : Inv (HotkeyListener.new now) := by
  refine ⟨?_, ?_, ?_, ?_, ?_⟩
  · simp [NoDupKeys, HotkeyListener.new]
  · simp [NoDupKeys, HotkeyListener.new]
  · intro k hs h hlk
    simp [HotkeyListener.new, alookup] at hlk
  · intro h am k hlk
    simp [HotkeyListener.new, alookup] at hlk
  · intro h am hlk
    simp [HotkeyListener.new, alookup] at hlk

theorem reachable_inv (s : HotkeyListener) (hr : Reachable s) : Inv s := by
  induction hr with
  | init now => exact inv_new now
  | register s s2 a ks hr hok ih => exact register_preserves_inv s s2 a ks ih hok
  | unregister s s2 a ks hr hok ih =>
    exact unregister_preserves_inv s s2 a ks ih hok
  | poll s hr ih => exact poll_preserves_inv s ih
  | enqueue s k hr ih => exact inv_congr s _ rfl rfl ih
  | tick s d hr hd ih => exact inv_congr s _ rfl rfl ih
  | setMin s m hr hm ih => exact inv_congr s _ rfl rfl ih

/-! ### Characterization of one poll step -/

/-- The action names a drained key event `key` causes `poll` to emit, in
order: for each listed fingerprint (in reverse-index order), if the group is
fully pressed after its `key` timestamp is updated, its action names in stored
order. -/
def triggered_actions (acts : List (Nat × ActionMapping)) (key : KeyCode)
    (now min_elapsed_time : Int) : List Nat → List String
  | [] => []
  | h :: t =>
    (match alookup acts h with
      | some am =>
        if (am.press_key key now).is_pressed now min_elapsed_time then
          (am.press_key key now).actions
        else []
      | none => []) ++ triggered_actions acts key now min_elapsed_time t

theorem triggered_actions_congr (acts1 acts2 : List (Nat × ActionMapping))
    (key : KeyCode) (now min_elapsed_time : Int) :
    ∀ hs : List Nat, (∀ x ∈ hs, alookup acts1 x = alookup acts2 x) →
    triggered_actions acts1 key now min_elapsed_time hs
      = triggered_actions acts2 key now min_elapsed_time hs := by
  intro hs
  induction hs with
  | nil =>
    intro hl
    rfl
  | cons c t ih =>
    intro hl
    rw [triggered_actions, triggered_actions,
      hl c (List.mem_cons_self c t), ih (fun x hx => hl x (List.mem_cons_of_mem c hx))]

theorem pollFold_char (key : KeyCode) : ∀ (hs : List Nat) (st : HotkeyListener),
    hs.Nodup →
    ((hs.foldl (pollAction key) st).channel = st.channel ∧
     (hs.foldl (pollAction key) st).reverse_lookup = st.reverse_lookup ∧
     (hs.foldl (pollAction key) st).min_elapsed_time = st.min_elapsed_time ∧
     (hs.foldl (pollAction key) st).now = st.now ∧
     (∀ h, h ∉ hs →
        alookup (hs.foldl (pollAction key) st).actions h = alookup st.actions h) ∧
     (∀ h am, h ∈ hs → alookup st.actions h = some am →
        alookup (hs.foldl (pollAction key) st).actions h
          = some (am.press_key key st.now)) ∧
     (hs.foldl (pollAction key) st).sent
        = st.sent ++ triggered_actions st.actions key st.now st.min_elapsed_time hs) := by
  intro hs
  induction hs with
  | nil =>
    intro st hnd
    refine ⟨rfl, rfl, rfl, rfl, fun h hh => rfl, fun h am hh => absurd hh (by simp), ?_⟩
    rw [triggered_actions, List.append_nil]
    rfl
  | cons c t ih =>
    intro st hnd
    rw [List.nodup_cons] at hnd
    obtain ⟨hct, hndt⟩ := hnd
    rw [List.foldl_cons]
    cases halook : alookup st.actions c with
    | none =>
      have hst1 : pollAction key st c = st := by
        simp [pollAction, halook]
      rw [hst1]
      obtain ⟨ihch, ihrl, ihmin, ihnow, ihnot, ihin, ihsent⟩ := ih st hndt
      refine ⟨ihch, ihrl, ihmin, ihnow, ?_, ?_, ?_⟩
      · intro h hh
        exact ihnot h (fun hx => hh (List.mem_cons_of_mem c hx))
      · intro h am hh ham
        rcases List.mem_cons.mp hh with hh | hh
        · subst hh
          rw [halook] at ham
          cases ham
        · exact ihin h am hh ham
      · rw [ihsent, triggered_actions, halook, List.nil_append]
    | some am =>
      have hst1 : pollAction key st c = { st with
          actions := ainsert st.actions c (am.press_key key st.now)
          sent := st.sent ++
            (if (am.press_key key st.now).is_pressed st.now st.min_elapsed_time
              then (am.press_key key st.now).actions else []) } := by
        by_cases hp : (am.press_key key st.now).is_pressed st.now
            st.min_elapsed_time = true
        · simp [pollAction, halook, hp]
        · simp [pollAction, halook, hp]
      rw [hst1]
      obtain ⟨ihch, ihrl, ihmin, ihnow, ihnot, ihin, ihsent⟩ := ih _ hndt
      refine ⟨ihch, ihrl, ihmin, ihnow, ?_, ?_, ?_⟩
      · intro h hh
        have hhc : h ≠ c := fun hx => hh (hx ▸ List.mem_cons_self c t)
        have hht : h ∉ t := fun hx => hh (List.mem_cons_of_mem c hx)
        rw [ihnot h hht]
        exact alookup_ainsert_ne _ _ _ _ (fun hx => hhc hx.symm)
      · intro h am4 hh ham
        rcases List.mem_cons.mp hh with hh | hh
        · subst hh
          rw [halook] at ham
          injection ham with ham
          subst ham
          rw [ihnot h hct]
          exact alookup_ainsert_self _ _ _
        · have hhc : h ≠ c := fun hx => hct (hx ▸ hh)
          rw [ihin h am4 hh ?_]
          rw [alookup_ainsert_ne _ _ _ _ (fun hx => hhc hx.symm)]
          exact ham
      · rw [ihsent]
        rw [triggered_actions_congr _ st.actions key st.now st.min_elapsed_time t ?_]
        · rw [triggered_actions, halook, List.append_assoc]
        · intro x hx
          exact alookup_ainsert_ne _ _ _ _
            (fun hh => hct (hh ▸ hx))

theorem pollAction_channel (key : KeyCode) (st : HotkeyListener) (h : Nat) :
    (pollAction key st h).channel = st.channel := by
  cases hv : alookup st.actions h with
  | none => simp [pollAction, hv]
  | some am =>
    simp only [pollAction, hv]
    by_cases hp : (am.press_key key st.now).is_pressed st.now st.min_elapsed_time
      = true
    · rw [if_pos hp]
    · rw [if_neg hp]

theorem pollFold_channel (key : KeyCode) : ∀ (l : List Nat) (st : HotkeyListener),
    (l.foldl (pollAction key) st).channel = st.channel := by
  intro l
  induction l with
  | nil =>
    intro st
    rfl
  | cons c t ih =>
    intro st
    rw [List.foldl_cons, ih, pollAction_channel]

theorem alookup_mem {α β : Type} [DecidableEq α] {l : List (α × β)} {x : α}
    {y : β} (h : alookup l x = some y) : (x, y) ∈ l := by
  induction l with
  | nil => cases h
  | cons p t ih =>
    obtain ⟨a, b⟩ := p
    by_cases hax : a = x
    · subst hax
      rw [alookup, if_pos rfl] at h
      injection h with h
      subst h
      exact List.mem_cons_self _ _
    · rw [alookup, if_neg hax] at h
      exact List.mem_cons_of_mem _ (ih h)

theorem mem_ainsert {α β : Type} [DecidableEq α] :
    ∀ (l : List (α × β)) (x : α) (y : β) (p : α × β),
    p ∈ ainsert l x y → p = (x, y) ∨ p ∈ l := by
  intro l
  induction l with
  | nil =>
    intro x y p h
    rw [ainsert] at h
    exact Or.inl (List.mem_singleton.mp h)
  | cons q t ih =>
    intro x y p h
    obtain ⟨a, b⟩ := q
    by_cases hax : a = x
    · subst hax
      have he : ainsert ((a, b) :: t) a y = (a, y) :: t := by simp [ainsert]
      rw [he] at h
      rcases List.mem_cons.mp h with h | h
      · exact Or.inl h
      · exact Or.inr (List.mem_cons_of_mem _ h)
    · have he : ainsert ((a, b) :: t) x y = (a, b) :: ainsert t x y := by
        simp [ainsert, hax]
      rw [he] at h
      rcases List.mem_cons.mp h with h | h
      · exact Or.inr (h ▸ List.mem_cons_self _ _)
      · rcases ih x y p h with h | h
        · exact Or.inl h
        · exact Or.inr (List.mem_cons_of_mem _ h)

theorem mem_foldl_ainsert_const (v : Int) : ∀ (l : List KeyCode)
    (m : List (KeyCode × Int)) (p : KeyCode × Int),
    p ∈ l.foldl (fun hm key => ainsert hm key v) m → p ∈ m ∨ p.2 = v := by
  intro l
  induction l with
  | nil =>
    intro m p h
    exact Or.inl h
  | cons c t ih =>
    intro m p h
    rw [List.foldl_cons] at h
    rcases ih (ainsert m c v) p h with h | h
    · rcases mem_ainsert m c v p h with h | h
      · exact Or.inr (by rw [h])
      · exact Or.inl h
    · exact Or.inr h

/-- Unfolding equation for `register_action`. -/
theorem register_action_eq (s : HotkeyListener) (a : String) (ks : List String) :
    s.register_action a ks = match string_slice_to_vec_and_hash ks with
      | .error e => .error e
      | .ok (key_codes, key_codes_hash) =>
        match alookup s.actions key_codes_hash with
        | some am =>
          match am.add_action a with
          | .error e => .error e
          | .ok am2 =>
            .ok { s with
              actions := ainsert s.actions key_codes_hash am2
              reverse_lookup := register_keys_fold s.reverse_lookup key_codes
                key_codes_hash }
        | none =>
          match (ActionMapping.new key_codes s.now).add_action a with
          | .error e => .error e
          | .ok am2 =>
            .ok { s with
              actions := ainsert s.actions key_codes_hash am2
              reverse_lookup := register_keys_fold s.reverse_lookup key_codes
                key_codes_hash } := rfl

/-- Unfolding equation for `unregister_action`. -/
theorem unregister_action_eq (s : HotkeyListener) (a : String) (ks : List String) :
    s.unregister_action a ks = match string_slice_to_vec_and_hash ks with
      | .error e => .error e
      | .ok (key_codes, key_codes_hash) =>
        match alookup s.actions key_codes_hash with
        | none => .error (.ActionDoesNotExist .Actions)
        | some am =>
          match am.remove_action a with
          | .error e => .error e
          | .ok am2 =>
            if 1 ≤ am2.actions.length then
              .ok { s with actions := ainsert s.actions key_codes_hash am2 }
            else
              .ok { s with
                actions := aerase s.actions key_codes_hash
                reverse_lookup := remove_empty_fold
                  (retain_hash_fold s.reverse_lookup key_codes key_codes_hash).1
                  (retain_hash_fold s.reverse_lookup key_codes key_codes_hash).2 } :=
  rfl

/-! ### Witness states -/

/-- The engine after `register_action "x" ["A"]` on a fresh listener at clock
0, with the key event for `"A"` (code 0) already enqueued. -/
def c1state : HotkeyListener :=
  { actions := [(1, { actions := ["x"], keys := [(0, -60000000000)] })]
    reverse_lookup := [(0, [1])]
    min_elapsed_time := 200000000
    channel := [0]
    sent := []
    now := 0 }

/-- The engine after `register_action "x" ["A"]` on a fresh listener at clock
0. -/
def c4state : HotkeyListener :=
  { actions := [(1, { actions := ["x"], keys := [(0, -60000000000)] })]
    reverse_lookup := [(0, [1])]
    min_elapsed_time := 200000000
    channel := []
    sent := []
    now := 0 }

/-- What one `poll` call does on draining key `key` listed under fingerprint
list `hs`: the event is consumed; every listed group has `key`'s timestamp set
to the current time (and no other timestamp touched); unlisted groups, the
reverse index and the window are unchanged; and exactly the groups fully
pressed after the update emit their action names, in stored order. -/
def poll_spec (s : HotkeyListener) (key : KeyCode) (rest : List KeyCode)
    (hs : List Nat) : Prop :=
  s.poll.channel = rest ∧
  s.poll.reverse_lookup = s.reverse_lookup ∧
  s.poll.min_elapsed_time = s.min_elapsed_time ∧
  (∀ h am, h ∈ hs → alookup s.actions h = some am →
      alookup s.poll.actions h = some (am.press_key key s.now)) ∧
  (∀ h, h ∉ hs → alookup s.poll.actions h = alookup s.actions h) ∧
  (∀ am : ActionMapping, acontains am.keys key = true →
      alookup (am.press_key key s.now).keys key = some s.now) ∧
  (∀ (am : ActionMapping) (k2 : KeyCode), k2 ≠ key →
      alookup (am.press_key key s.now).keys k2 = alookup am.keys k2) ∧
  s.poll.sent = s.sent ++ triggered_actions s.actions key s.now
    s.min_elapsed_time hs

/-! ### Claim theorems -/

/-- Claim C1: when `poll` drains a key `key` that is present in the reverse
index (with duplicate-free fingerprint list `hs`, as register maintains), it
sets `key`'s timestamp to the current time in every listed group, leaves every
other timestamp and group untouched, and appends to the sink exactly the
action names (in stored order) of those listed groups that are fully pressed
after their update; emission resets no timestamp. -/
theorem poll_drain_updates_and_emits (s : HotkeyListener) (key : KeyCode)
    (rest : List KeyCode) (hs : List Nat) (hch : s.channel = key :: rest)
    (hrl : alookup s.reverse_lookup key = some hs) (hnd : hs.Nodup) :
    poll_spec s key rest hs := by
  have hrl2 : alookup ({ s with channel := rest } : HotkeyListener).reverse_lookup
      key = some hs := hrl
  have hpoll : s.poll = hs.foldl (pollAction key) { s with channel := rest } := by
    simp only [HotkeyListener.poll, hch, hrl2]
  obtain ⟨c1, c2, c3, c4, c5, c6, c7⟩ :=
    pollFold_char key hs { s with channel := rest } hnd
  refine ⟨?_, ?_, ?_, ?_, ?_, ?_, ?_, ?_⟩
  · rw [hpoll]
    exact c1
  · rw [hpoll]
    exact c2
  · rw [hpoll]
    exact c3
  · intro h am hh ham
    rw [hpoll]
    exact c6 h am hh ham
  · intro h hh
    rw [hpoll]
    exact c5 h hh
  · intro am hc
    exact alookup_press_key_self am key s.now hc
  · intro am k2 hk
    exact alookup_press_key_ne am key k2 s.now hk
  · rw [hpoll]
    exact c7

theorem poll_drain_updates_and_emits_witness :
    c1state.channel = 0 :: [] ∧ alookup c1state.reverse_lookup 0 = some [1] ∧
      ([1] : List Nat).Nodup ∧ poll_spec c1state 0 [] [1] :=
  ⟨rfl, by decide, by decide,
    poll_drain_updates_and_emits c1state 0 [] [1] rfl (by decide) (by decide)⟩

/-- Claim C2: canonicalization is order-independent — for every list of
key-name strings and every permutation of it, `string_slice_to_vec_and_hash`
returns the same result, in particular the same fingerprint. -/
theorem fingerprint_perm_invariant (l1 l2 : List String) (h : l1.Perm l2) :
    string_slice_to_vec_and_hash l1 = string_slice_to_vec_and_hash l2 :=
  s2h_eq_of_perm l1 l2 h

theorem fingerprint_perm_invariant_witness :
    (["B", "A"] : List String).Perm ["A", "B"] ∧
      string_slice_to_vec_and_hash ["B", "A"]
        = string_slice_to_vec_and_hash ["A", "B"] :=
  ⟨by decide, fingerprint_perm_invariant ["B", "A"] ["A", "B"] (by decide)⟩

/-- Claim C3 counterexample: `["A", "A"]` and `["A"]` denote the same set of
keys, yet canonicalization hashes the sorted list with duplicates kept, so
the two fingerprints differ — the fingerprint is not a function of the key
set alone. -/
theorem fingerprint_not_set_function :
    (["A", "A"] : List String).dedup = (["A"] : List String).dedup ∧
      string_slice_to_vec_and_hash ["A", "A"] = .ok ([0, 0], 2) ∧
      string_slice_to_vec_and_hash ["A"] = .ok ([0], 1) ∧ (2 : Nat) ≠ 1 := by
  refine ⟨by decide, by decide, by decide, by decide⟩

/-- Claim C3 amended: the fingerprint is a function of the multiset of key
names — two lists related by permutation always canonicalize identically, but
lists repeating a name hash a different sequence than their deduplication and
may yield a different fingerprint. -/
theorem fingerprint_multiset_function (l1 l2 : List String) (h : l1.Perm l2) :
    string_slice_to_vec_and_hash l1 = string_slice_to_vec_and_hash l2 :=
  s2h_eq_of_perm l1 l2 h

theorem fingerprint_multiset_function_witness :
    (["Ctrl", "A"] : List String).Perm ["A", "Ctrl"] ∧
      string_slice_to_vec_and_hash ["Ctrl", "A"]
        = string_slice_to_vec_and_hash ["A", "Ctrl"] :=
  ⟨by decide, fingerprint_multiset_function ["Ctrl", "A"] ["A", "Ctrl"] (by decide)⟩

/-- Claim C4: in every reachable state, a fingerprint is listed in the
reverse index under a key if and only if an ActionGroup with that fingerprint
exists in the actions table and its keys map contains that key. -/
theorem reverse_index_invariant (s : HotkeyListener) (hr : Reachable s)
    (k : KeyCode) (h : Nat) :
    (∃ hs, alookup s.reverse_lookup k = some hs ∧ h ∈ hs) ↔
      (∃ am, alookup s.actions h = some am ∧ acontains am.keys k = true) := by
  have hinv := reachable_inv s hr
  constructor
  · rintro ⟨hs, h1, h2⟩
    exact hinv.rlg k hs h h1 h2
  · rintro ⟨am, h1, h2⟩
    exact hinv.grl h am k h1 h2

theorem reverse_index_invariant_witness :
    Reachable c4state ∧
      ((∃ hs, alookup c4state.reverse_lookup 0 = some hs ∧ 1 ∈ hs) ↔
        (∃ am, alookup c4state.actions 1 = some am ∧
          acontains am.keys 0 = true)) :=
  ⟨Reachable.register (HotkeyListener.new 0) c4state "x" ["A"]
      (Reachable.init 0) (by decide),
    reverse_index_invariant c4state
      (Reachable.register (HotkeyListener.new 0) c4state "x" ["A"]
        (Reachable.init 0) (by decide)) 0 1⟩

/-- Claim C5 counterexample: a group freshly created by `register_action` has
its timestamps only 60 seconds in the past, so with a configured window of 60
seconds (or more) it evaluates as fully pressed before any poll; a group over
an empty key list is vacuously pressed under every window. -/
theorem fresh_group_pressed_counterexample :
    (HotkeyListener.new 0).register_action "x" ["A"] = .ok c4state ∧
    alookup c4state.actions (get_hash [0])
      = some { actions := ["x"], keys := [(0, 0 - initOffset)] } ∧
    ActionMapping.is_pressed { actions := ["x"], keys := [(0, 0 - initOffset)] }
      0 (60 * nsPerSec) = true ∧
    (ActionMapping.new [] 0).is_pressed 0 0 = true := by
  refine ⟨by decide, by decide, by decide, by decide⟩

/-- Claim C5 amended: a freshly created group over a nonempty key list
evaluates as not fully pressed at any time at or after creation, provided the
configured window is shorter than the 60-second initialization offset (the
default 0.2 s window qualifies). -/
theorem fresh_group_not_pressed (kc : List KeyCode)
    (now now2 min_elapsed_time : Int) (hne : kc ≠ [])
    (hmin : min_elapsed_time < initOffset) (hnow : now ≤ now2) :
    (ActionMapping.new kc now).is_pressed now2 min_elapsed_time = false := by
  obtain ⟨k, hkkc⟩ : ∃ k, k ∈ kc := by
    cases kc with
    | nil => exact absurd rfl hne
    | cons a t => exact ⟨a, List.mem_cons_self a t⟩
  have hc : acontains (ActionMapping.new kc now).keys k = true :=
    (acontains_new_keys kc now k).mpr hkkc
  rw [acontains, Option.isSome_iff_exists] at hc
  obtain ⟨b, hb⟩ := hc
  have hb2 : (k, b) ∈ (ActionMapping.new kc now).keys := alookup_mem hb
  have hval : b = now - initOffset := by
    rcases mem_foldl_ainsert_const (now - initOffset) kc [] (k, b) hb2 with h | h
    · cases h
    · exact h
  cases hall : (ActionMapping.new kc now).is_pressed now2 min_elapsed_time with
  | false => rfl
  | true =>
    exfalso
    rw [ActionMapping.is_pressed] at hall
    have h2 := of_decide_eq_true (List.all_eq_true.mp hall (k, b) hb2)
    omega

theorem fresh_group_not_pressed_witness :
    ([0] : List KeyCode) ≠ [] ∧ (200000000 : Int) < initOffset ∧ (0 : Int) ≤ 0 ∧
      (ActionMapping.new [0] 0).is_pressed 0 200000000 = false :=
  ⟨by decide, by decide, by decide,
    fresh_group_not_pressed [0] 0 0 200000000 (by decide) (by decide) (by decide)⟩

/-- Claim C6: in every reachable state, whenever `poll` finds fingerprint `h`
listed under a drained key `k`, the group at `h` exists and its keys map
contains `k` — both `unreachable!()` branches guarding `press_key` during
press-handling are dead. -/
theorem press_key_lookup_safe (s : HotkeyListener) (hr : Reachable s)
    (k : KeyCode) (hs : List Nat) (h : Nat)
    (h1 : alookup s.reverse_lookup k = some hs) (h2 : h ∈ hs) :
    ∃ am, alookup s.actions h = some am ∧ acontains am.keys k = true :=
  (reachable_inv s hr).rlg k hs h h1 h2

theorem press_key_lookup_safe_witness :
    Reachable c4state ∧ alookup c4state.reverse_lookup 0 = some [1] ∧
      (1 : Nat) ∈ [1] ∧
      ∃ am, alookup c4state.actions 1 = some am ∧ acontains am.keys 0 = true :=
  ⟨Reachable.register (HotkeyListener.new 0) c4state "x" ["A"]
      (Reachable.init 0) (by decide), by decide, by decide,
    press_key_lookup_safe c4state
      (Reachable.register (HotkeyListener.new 0) c4state "x" ["A"]
        (Reachable.init 0) (by decide)) 0 [1] 1 (by decide) (by decide)⟩

/-- Claim C7: registering an action name already bound under the fingerprint
that the key list canonicalizes to fails with `ActionAlreadyExists` (the
already-bound error); no state is returned, so the group's action list is
unchanged. -/
theorem register_already_bound (s : HotkeyListener) (a : String)
    (ks : List String) (kc : List KeyCode) (h : Nat) (am : ActionMapping)
    (hcanon : string_slice_to_vec_and_hash ks = .ok (kc, h))
    (halook : alookup s.actions h = some am) (hmem : a ∈ am.actions) :
    s.register_action a ks = .error .ActionAlreadyExists := by
  rw [register_action_eq]
  simp only [hcanon, halook]
  have hadd : am.add_action a = .error .ActionAlreadyExists := by
    rw [ActionMapping.add_action, if_pos hmem]
  simp only [hadd]

theorem register_already_bound_witness :
    string_slice_to_vec_and_hash ["A"] = .ok ([0], 1) ∧
      alookup c4state.actions 1
        = some { actions := ["x"], keys := [(0, -60000000000)] } ∧
      "x" ∈ ({ actions := ["x"], keys := [(0, -60000000000)] } :
        ActionMapping).actions ∧
      c4state.register_action "x" ["A"] = .error .ActionAlreadyExists :=
  ⟨by decide, by decide, by decide,
    register_already_bound c4state "x" ["A"] [0] 1
      { actions := ["x"], keys := [(0, -60000000000)] }
      (by decide) (by decide) (by decide)⟩

/-- Claim C8: unregistering fails with `ActionDoesNotExist Actions` (the
group-not-found error) when no group exists for the canonicalized
fingerprint, and with `ActionDoesNotExist ActionMapping` (the
action-not-bound error) when the group exists but does not list the action;
in both cases an error is returned and no state is produced, so the tables
and hooks are unchanged. -/
theorem unregister_error_paths (s : HotkeyListener) (a : String)
    (ks : List String) (kc : List KeyCode) (h : Nat)
    (hcanon : string_slice_to_vec_and_hash ks = .ok (kc, h)) :
    (alookup s.actions h = none →
      s.unregister_action a ks = .error (.ActionDoesNotExist .Actions)) ∧
    (∀ am, alookup s.actions h = some am → a ∉ am.actions →
      s.unregister_action a ks = .error (.ActionDoesNotExist .ActionMapping)) := by
  constructor
  · intro halook
    rw [unregister_action_eq]
    simp only [hcanon, halook]
  · intro am halook hmem
    rw [unregister_action_eq]
    simp only [hcanon, halook]
    have hrm : am.remove_action a = .error (.ActionDoesNotExist .ActionMapping) := by
      rw [ActionMapping.remove_action, if_neg hmem]
    simp only [hrm]

theorem unregister_error_paths_witness :
    string_slice_to_vec_and_hash ["A"] = .ok ([0], 1) ∧
      alookup (HotkeyListener.new 0).actions 1 = none ∧
      (HotkeyListener.new 0).unregister_action "x" ["A"]
        = .error (.ActionDoesNotExist .Actions) ∧
      alookup c4state.actions 1
        = some { actions := ["x"], keys := [(0, -60000000000)] } ∧
      "y" ∉ ({ actions := ["x"], keys := [(0, -60000000000)] } :
        ActionMapping).actions ∧
      c4state.unregister_action "y" ["A"]
        = .error (.ActionDoesNotExist .ActionMapping) :=
  ⟨by decide, by decide,
    (unregister_error_paths (HotkeyListener.new 0) "x" ["A"] [0] 1
      (by decide)).1 (by decide),
    by decide, by decide,
    (unregister_error_paths c4state "y" ["A"] [0] 1 (by decide)).2
      { actions := ["x"], keys := [(0, -60000000000)] } (by decide) (by decide)⟩

/-- Claim C9: a `poll` call on an empty channel returns the state unchanged
(tables, timestamps and all), and on a nonempty channel it removes exactly
the first event — at most one event is drained per call. -/
theorem poll_drains_at_most_one (s : HotkeyListener) :
    (s.channel = [] → s.poll = s) ∧
    (∀ k rest, s.channel = k :: rest → s.poll.channel = rest) := by
  constructor
  · intro hch
    simp [HotkeyListener.poll, hch]
  · intro k rest hch
    simp only [HotkeyListener.poll, hch]
    cases hrl : alookup ({ s with channel := rest } :
        HotkeyListener).reverse_lookup k with
    | none => simp [hrl]
    | some v =>
      simp only [hrl]
      exact pollFold_channel k v { s with channel := rest }

theorem poll_drains_at_most_one_witness :
    (HotkeyListener.new 0).channel = [] ∧
      (HotkeyListener.new 0).poll = HotkeyListener.new 0 ∧
      c1state.channel = 0 :: [] ∧ c1state.poll.channel = [] :=
  ⟨rfl, (poll_drains_at_most_one (HotkeyListener.new 0)).1 rfl, rfl,
    (poll_drains_at_most_one c1state).2 0 [] rfl⟩

end Viraction
